import Mathlib

/-!
# Verification of the temporis temporal-reachability-game solver

Shallow embedding of the core of the `temporis` repository
(`src/presburger_term.cpp`, `src/presburger_formula.cpp`,
`src/ggg_temporal_graph.cpp`, `src/reachability_objective.cpp`,
`src/ggg_temporal_solver.cpp`) together with proofs and refutations of the
specification's claims about it.

Conventions of the embedding:
* C++ `int` is modelled by `Int` (no test input overflows, per the spec's
  numeric-semantics section); C++ `%` on `Int` is `Int.tmod`, which has the
  same truncated-division sign convention.
* `std::map<std::string,int>` environments are modelled by association lists
  with first-match lookup; inserting a binding conses it at the front, which
  is extensionally the same override semantics as `operator[]` assignment.
* `std::vector<std::unique_ptr<PresburgerFormula>>` children are modelled by
  a mutually inductive `FormulaList` (isomorphic to `List`), which keeps the
  evaluator structurally recursive.
* Graph vertices are their indices (`Nat`), exactly as in the
  boost `vecS` adjacency list used by the code.
-/

namespace Temporis

/-! ## Terms (`src/presburger_term.cpp`) -/

/-- `PresburgerTerm`: a linear expression, `coefficients_` map plus
`constant_`.  The `std::map<std::string,int>` of coefficients is modelled as
an association list with unique keys (lookup is first-match). -/
structure PresburgerTerm where
  coefficients : List (String × Int)
  constant : Int
deriving DecidableEq, Repr

/-- `PresburgerTerm(int val)` constructor. -/
def PresburgerTerm.ofConst (v : Int) : PresburgerTerm := ⟨[], v⟩

/-- `PresburgerTerm(const std::string& var)` constructor: coefficient 1. -/
def PresburgerTerm.ofVar (x : String) : PresburgerTerm := ⟨[(x, 1)], 0⟩

/-- `PresburgerTerm(var, coefficient)` constructor. -/
def PresburgerTerm.ofVarCoeff (x : String) (c : Int) : PresburgerTerm := ⟨[(x, c)], 0⟩

/-- `coefficients_[var] += coeff` on the association-list model of
`std::map`: add into an existing entry, or default-insert `0` and add
(i.e. append the entry) when the key is absent. -/
def addEntry : List (String × Int) → String → Int → List (String × Int)
  | [], x, c => [(x, c)]
  | (y, d) :: rest, x, c =>
      if y = x then (y, d + c) :: rest else (y, d) :: addEntry rest x c

/-- `PresburgerTerm::operator+`: copy the left term, add the right constant,
then `coefficients_[var] += coeff` for every entry of the right term.  Note
that, exactly as in the source, entries whose sum is `0` are NOT removed. -/
def PresburgerTerm.add (t u : PresburgerTerm) : PresburgerTerm :=
  ⟨u.coefficients.foldl (fun acc e => addEntry acc e.1 e.2) t.coefficients,
   t.constant + u.constant⟩

/-- `PresburgerTerm::operator*(int scalar)`: multiply the constant and every
coefficient in place.  Entries that become `0` are NOT removed. -/
def PresburgerTerm.scale (t : PresburgerTerm) (k : Int) : PresburgerTerm :=
  ⟨t.coefficients.map (fun e => (e.1, e.2 * k)), t.constant * k⟩

/-- First-match lookup in an association list: the model of
`std::map::find`. -/
def lookupVar : List (String × Int) → String → Option Int
  | [], _ => none
  | (y, d) :: rest, x => if y = x then some d else lookupVar rest x

/-- Environment: `std::map<std::string,int>` of variable values. -/
abbrev Env := List (String × Int)

/-- `PresburgerFormula::evaluate_term`: `constant_` plus
`coeff * values[var]` for each coefficient entry, variables missing from the
environment contributing `0`. -/
def evalTerm (t : PresburgerTerm) (env : Env) : Int :=
  t.coefficients.foldl (fun acc e => acc + e.2 * ((lookupVar env e.1).getD 0)) t.constant

/-! ## Formulas (`src/presburger_formula.cpp`) -/

mutual
/-- `PresburgerFormula`: tagged variant over terms.  The `children_`
vector of `AND`/`OR` is the mutually inductive `FormulaList`; `NOT` and
`EXISTS` are built by their factory functions with exactly one child, which
is how they are embedded. -/
inductive PresburgerFormula where
  | equal (l r : PresburgerTerm)
  | greaterequal (l r : PresburgerTerm)
  | lessequal (l r : PresburgerTerm)
  | greater (l r : PresburgerTerm)
  | less (l r : PresburgerTerm)
  | modFormula (l : PresburgerTerm) (modulus remainder : Int)
  | andFormula (children : FormulaList)
  | orFormula (children : FormulaList)
  | notFormula (child : PresburgerFormula)
  | existsFormula (x : String) (child : PresburgerFormula)
deriving DecidableEq, Repr

/-- `std::vector<std::unique_ptr<PresburgerFormula>>` of children. -/
inductive FormulaList where
  | nil
  | cons (f : PresburgerFormula) (rest : FormulaList)
deriving DecidableEq, Repr
end

/-- `PresburgerFormula::modulus(expr, modulus, remainder)` factory: it
performs NO validation of the modulus; the formula is built unconditionally
with the given fields. -/
def PresburgerFormula.mkModulus (expr : PresburgerTerm) (modulus remainder : Int) :
    PresburgerFormula :=
  .modFormula expr modulus remainder

/-- The `modulus_` field of a formula (`0` on non-modulus nodes, as
initialised by the main constructor). -/
def PresburgerFormula.modulusField : PresburgerFormula → Int
  | .modFormula _ m _ => m
  | _ => 0

mutual
/-- `PresburgerFormula::evaluate`.  The `MODULUS` case is
`(expr_val % modulus_) == remainder_` with C++ truncated `%` (`Int.tmod`);
there is NO normalisation of negative values, and `modulus_ = 0` would be a
division by zero in the source (`Int.tmod x 0 = x` in the total model).
The `EXISTS` case tries the values `0` to `10` inclusive, overriding any
existing binding of the variable. -/
def evalFormula : PresburgerFormula → Env → Bool
  | .equal l r, env => evalTerm l env == evalTerm r env
  | .greaterequal l r, env => evalTerm l env ≥ evalTerm r env
  | .lessequal l r, env => evalTerm l env ≤ evalTerm r env
  | .greater l r, env => evalTerm l env > evalTerm r env
  | .less l r, env => evalTerm l env < evalTerm r env
  | .modFormula l m r, env => Int.tmod (evalTerm l env) m == r
  | .andFormula cs, env => evalAll cs env
  | .orFormula cs, env => evalAny cs env
  | .notFormula c, env => !evalFormula c env
  | .existsFormula x c, env =>
      (List.range 11).any (fun val => evalFormula c ((x, (val : Int)) :: env))

/-- The `AND` loop: false as soon as one child is false, true when the
children are exhausted (so the empty conjunction is true). -/
def evalAll : FormulaList → Env → Bool
  | .nil, _ => true
  | .cons f rest, env => evalFormula f env && evalAll rest env

/-- The `OR` loop: true as soon as one child is true, false when the
children are exhausted (so the empty disjunction is false). -/
def evalAny : FormulaList → Env → Bool
  | .nil, _ => false
  | .cons f rest, env => evalFormula f env || evalAny rest env
end

/-! ## The temporal game (`src/ggg_temporal_graph.cpp`) -/

/-- One vertex's bundled properties (`GGGTemporalVertexProps`): owning
player and target flag (both `int` in the source). -/
structure VertexInfo where
  player : Int
  target : Int
deriving DecidableEq, Repr

/-- One edge: source and destination vertex indices plus the optional
constraint formula stored in the manager's `edge_constraints_` map (`none`
when no constraint was attached). -/
structure GameEdge where
  src : Nat
  dst : Nat
  constraint : Option PresburgerFormula

/-- The temporal game: the boost `vecS` graph is a vector of vertex
properties (a vertex is its index) plus a list of edges, together with the
per-edge constraints.  Read-only during solving. -/
structure Game where
  vertices : List VertexInfo
  edges : List GameEdge

/-- Number of vertices. -/
def Game.n (g : Game) : Nat := g.vertices.length

/-- The player owning vertex `v` (`(*graph_)[vertex].player`); vertices out
of range never arise in the source and get owner `0`. -/
def Game.playerOf (g : Game) (v : Nat) : Int :=
  ((g.vertices.getD v ⟨0, 0⟩).player)

/-- The target flag of vertex `v`. -/
def Game.targetOf (g : Game) (v : Nat) : Int :=
  ((g.vertices.getD v ⟨0, 0⟩).target)

/-- `GGGTemporalGameManager::is_edge_constraint_satisfied(edge, time)`:
`true` when the edge has no constraint, otherwise the constraint evaluated
in the environment `{"time" ↦ time}`. -/
def constraintSatisfied (e : GameEdge) (time : Int) : Bool :=
  match e.constraint with
  | none => true
  | some f => evalFormula f [("time", time)]

/-- `GGGTemporalGameManager::get_available_moves(vertex, time)`: the
destinations of the outgoing edges of `vertex` whose constraint holds at
`time`, in edge order. -/
def Game.availableMoves (g : Game) (v : Nat) (time : Int) : List Nat :=
  (g.edges.filter (fun e => e.src == v && constraintSatisfied e time)).map (·.dst)

/-- `GGGTemporalGameManager::get_target_vertices()`: the vertices whose
`target` flag equals `1`. -/
def Game.targetSet (g : Game) : Finset Nat :=
  (Finset.range g.n).filter (fun v => g.targetOf v = 1)

/-- The out-degree of `v` (number of outgoing edges, constraints not
considered). -/
def Game.outDegree (g : Game) (v : Nat) : Nat :=
  (g.edges.filter (fun e => e.src == v)).length

/-- `GGGTemporalGameManager::validate_game_structure()`: false when there
are no vertices, false when some vertex has no outgoing edge, and otherwise
true exactly when some target vertex exists.  (No other check is made; in
particular the constraint formulas are never inspected.) -/
def Game.validate (g : Game) : Bool :=
  if g.n = 0 then false
  else if (List.range g.n).any (fun v => g.outDegree v == 0) then false
  else !(g.targetSet = ∅)

/-! ## The backwards temporal attractor
(`GGGTemporalReachabilitySolver::compute_backwards_temporal_attractor`) -/

/-- The body of one iteration of the `for (int time = max_time_-1; ...)`
loop: build `new_attractor` from scratch by scanning every vertex; skip
vertices with no available move; a player-0 vertex enters when some move
leads into the current attractor, any other vertex when all moves do. -/
def attractorStep (g : Game) (A : Finset Nat) (t : Nat) : Finset Nat :=
  (Finset.range g.n).filter (fun v =>
    let moves := g.availableMoves v (t : Int)
    ¬moves.isEmpty = true ∧
      (if g.playerOf v = 0 then moves.any (fun m => decide (m ∈ A)) = true
       else moves.all (fun m => decide (m ∈ A)) = true))

/-- The loop `for (int time = t-1; time >= 0; --time)` of
`compute_backwards_temporal_attractor`, replacing (never accumulating) the
attractor at each step; `backwardLoop g t A` runs the iterations for times
`t-1, t-2, …, 0` starting from attractor `A`. -/
def backwardLoop (g : Game) : Nat → Finset Nat → Finset Nat
  | 0, A => A
  | t + 1, A => backwardLoop g t (attractorStep g A t)

/-- `compute_backwards_temporal_attractor()`: initialise the attractor with
the target vertices and run the backwards loop from `max_time - 1` down to
`0`; the result is the Player-0 winning set at time 0 reported by
`GGGTemporalReachabilitySolver::solve`. -/
def backwardWinning (g : Game) (T : Nat) : Finset Nat :=
  backwardLoop g T g.targetSet

/-! ## The expansion solver (`GGGTemporalExpansionSolver`) -/

/-- The vertex set of the time-expanded static graph built by
`expand_temporal_graph`: a static vertex is a pair `(v, t)` with `v` a game
vertex and `0 ≤ t ≤ max_time` (the source names them through the bijection
`vertex_map_`; the embedding uses the pairs themselves). -/
def staticVertices (g : Game) (T : Nat) : Finset (Nat × Nat) :=
  Finset.range g.n ×ˢ Finset.range (T + 1)

/-- The successors of static vertex `(v, t)` in the expanded graph: for
`t < max_time`, one edge `(v,t) → (m,t+1)` per outgoing edge of `v` whose
constraint holds at time `t`; no vertex at `max_time` has successors. -/
def staticSuccs (g : Game) (T : Nat) (x : Nat × Nat) : List (Nat × Nat) :=
  if x.2 < T then (g.availableMoves x.1 (x.2 : Int)).map (fun m => (m, x.2 + 1)) else []

/-- `create_expanded_target_set`: only the `max_time` copies of the target
vertices. -/
def expandedTargets (g : Game) (T : Nat) : Finset (Nat × Nat) :=
  g.targetSet.image (fun v => (v, T))

/-- One sweep of the `while (changed)` loop of `compute_static_attractor`:
the vertices not yet in the attractor that have some successor in it. -/
def newVertices (g : Game) (T : Nat) (A : Finset (Nat × Nat)) : Finset (Nat × Nat) :=
  (staticVertices g T).filter (fun x => x ∉ A ∧ ∃ y ∈ staticSuccs g T x, y ∈ A)

/-- The `while (changed)` loop of `compute_static_attractor`, with an
explicit fuel so that the recursion is structural: each productive sweep
adds at least one vertex of the (finite) static graph, so
`(staticVertices g T).card + 1` sweeps are always enough to reach the
fixpoint the C++ loop stops at (`staticLoop_isFixpoint` below proves the
fuel suffices). -/
def staticLoop (g : Game) (T : Nat) : Nat → Finset (Nat × Nat) → Finset (Nat × Nat)
  | 0, A => A
  | fuel + 1, A =>
      let N := newVertices g T A
      if N = ∅ then A else staticLoop g T fuel (A ∪ N)

/-- `compute_static_attractor(static_graph, target_set)`. -/
def computeStaticAttractor (g : Game) (T : Nat) (targets : Finset (Nat × Nat)) :
    Finset (Nat × Nat) :=
  staticLoop g T ((staticVertices g T).card + 1) targets

/-- `convert_solution_back`: a game vertex is winning for Player 0 exactly
when its time-0 copy lies in the static attractor of the expanded target
set; this is the winning set reported by
`GGGTemporalExpansionSolver::solve`. -/
def expansionWinning (g : Game) (T : Nat) : Finset Nat :=
  (Finset.range g.n).filter
    (fun v => (v, 0) ∈ computeStaticAttractor g T (expandedTargets g T))

/-! ## Layered characterisation of the expanded attractor

`ewAux g T d` is the set of vertices from which a timed path of length `d`
reaches a target, starting at time `T - d`; it is the layer-by-layer reading
of the expanded static attractor, used to relate the two solvers. -/

/-- Winning layers of the expanded graph, counted from the target layer:
`ewAux g T 0` is the target set (layer `T`), and `ewAux g T (d+1)` (layer
`T-d-1`) holds the vertices with an available move at time `T-d-1` into the
previous layer. -/
def ewAux (g : Game) (T : Nat) : Nat → Finset Nat
  | 0 => g.targetSet
  | d + 1 =>
      (Finset.range g.n).filter
        (fun v =>
          (g.availableMoves v ((T - (d + 1) : Nat) : Int)).any
            (fun m => decide (m ∈ ewAux g T d)) = true)

/-! ## The spec's description of the backwards attractor (for claim C2) -/

/-- The spec's wording of one backwards iteration: a vertex with no
available move is not in `A'`; a Player-0 vertex is in `A'` iff some move
leads into `A`; a Player-1 vertex is in `A'` iff every move leads into
`A`. -/
def specAttractorStep (g : Game) (A : Finset Nat) (t : Nat) : Finset Nat :=
  (Finset.range g.n).filter (fun v =>
    g.availableMoves v (t : Int) ≠ [] ∧
      ((g.playerOf v = 0 ∧ ∃ m ∈ g.availableMoves v (t : Int), m ∈ A) ∨
       (g.playerOf v ≠ 0 ∧ ∀ m ∈ g.availableMoves v (t : Int), m ∈ A)))

/-- The spec's backwards iteration, `t` from `T-1` down to `0`, replacing
`A` at each step. -/
def specBackwardLoop (g : Game) : Nat → Finset Nat → Finset Nat
  | 0, A => A
  | t + 1, A => specBackwardLoop g t (specAttractorStep g A t)

/-- The spec's wording of the whole backwards computation: start from the
target set and iterate down to time `0`. -/
def specBackwardWinning (g : Game) (T : Nat) : Finset Nat :=
  specBackwardLoop g T g.targetSet

/-! ## Objectives (`src/reachability_objective.cpp` and
`GGGReachabilityObjective` in `src/ggg_temporal_graph.cpp`) -/

/-- The four objective kinds. -/
inductive ObjectiveType where
  | reachability
  | safety
  | timeBoundedReach
  | timeBoundedSafety
deriving DecidableEq, Repr

/-- `ReachabilityObjective` (`src/reachability_objective.cpp`): kind, target
set and `time_bound_` (an `int`; negative means "no bound"). -/
structure ReachabilityObjective where
  typ : ObjectiveType
  targets : Finset Nat
  timeBound : Int
deriving DecidableEq

/-- `ReachabilityObjective::is_satisfied(current_vertex, current_time)`. -/
def ReachabilityObjective.isSatisfied (o : ReachabilityObjective) (v : Nat) (t : Int) : Bool :=
  let atTarget := decide (v ∈ o.targets)
  match o.typ with
  | .reachability => atTarget
  | .timeBoundedReach => atTarget
  | .safety => !atTarget
  | .timeBoundedSafety =>
      if o.timeBound ≥ 0 ∧ t ≥ o.timeBound then true else !atTarget

/-- `ReachabilityObjective::has_failed(current_vertex, current_time)`.  Note
the `TIME_BOUNDED_SAFETY` case returns `at_target` with no look at the
time, although its own comment reads "Failed if reached target before time
bound". -/
def ReachabilityObjective.hasFailed (o : ReachabilityObjective) (v : Nat) (t : Int) : Bool :=
  let atTarget := decide (v ∈ o.targets)
  match o.typ with
  | .reachability => false
  | .timeBoundedReach =>
      if o.timeBound ≥ 0 ∧ t > o.timeBound then !atTarget else false
  | .safety => atTarget
  | .timeBoundedSafety => atTarget

/-- `GGGReachabilityObjective::is_satisfied(vertex, time)`
(`src/ggg_temporal_graph.cpp`, the parallel implementation). -/
def GGGReachabilityObjective.isSatisfied (o : ReachabilityObjective) (v : Nat) (t : Int) : Bool :=
  let atTarget := decide (v ∈ o.targets)
  match o.typ with
  | .reachability => atTarget
  | .timeBoundedReach => atTarget && (decide (o.timeBound < 0) || decide (t ≤ o.timeBound))
  | .safety => !atTarget
  | .timeBoundedSafety => !atTarget || (decide (o.timeBound ≥ 0) && decide (t > o.timeBound))

/-- `GGGReachabilityObjective::has_failed(vertex, time)`. -/
def GGGReachabilityObjective.hasFailed (o : ReachabilityObjective) (v : Nat) (t : Int) : Bool :=
  let atTarget := decide (v ∈ o.targets)
  match o.typ with
  | .reachability => false
  | .timeBoundedReach => decide (o.timeBound ≥ 0) && decide (t > o.timeBound) && !atTarget
  | .safety => atTarget
  | .timeBoundedSafety => atTarget && (decide (o.timeBound < 0) || decide (t ≤ o.timeBound))

/-! ## Syntactic occurrence of the clock variable (for claim C8) -/

/-- Does the term mention a given variable in its coefficient map? -/
def termMentions (t : PresburgerTerm) (x : String) : Bool :=
  t.coefficients.any (fun e => e.1 == x)

mutual
/-- Does the formula mention the variable `"time"` anywhere (in
particular, in its support)? -/
def formulaMentionsTime : PresburgerFormula → Bool
  | .equal l r => termMentions l "time" || termMentions r "time"
  | .greaterequal l r => termMentions l "time" || termMentions r "time"
  | .lessequal l r => termMentions l "time" || termMentions r "time"
  | .greater l r => termMentions l "time" || termMentions r "time"
  | .less l r => termMentions l "time" || termMentions r "time"
  | .modFormula l _ _ => termMentions l "time"
  | .andFormula cs => listMentionsTime cs
  | .orFormula cs => listMentionsTime cs
  | .notFormula c => formulaMentionsTime c
  | .existsFormula x c => !(x == "time") && formulaMentionsTime c

/-- Any child mentions `"time"`. -/
def listMentionsTime : FormulaList → Bool
  | .nil => false
  | .cons f rest => formulaMentionsTime f || listMentionsTime rest
end

/-- A game has a timeless constraint when some edge carries a constraint
formula that never mentions `"time"`. -/
def Game.hasTimelessConstraint (g : Game) : Bool :=
  g.edges.any (fun e =>
    match e.constraint with
    | some f => !formulaMentionsTime f
    | none => false)

/-! ## Concrete games used by the counterexamples and witnesses -/

/-- Scenario S1 of the spec: vertex 0 = `v0` (Player 0), vertex 1 = `v1`
(Player 0, target); one edge `v0 → v1` with constraint `time == 0`. -/
def s1 : Game :=
  ⟨[⟨0, 0⟩, ⟨0, 1⟩],
   [⟨0, 1, some (.equal (.ofVar "time") (.ofConst 0))⟩]⟩

/-- A game separating the two solvers: vertex 0 is owned by Player 1 and
has two always-available edges, one into the target vertex 1 and one into
the non-target vertex 2. -/
def gSep : Game :=
  ⟨[⟨1, 0⟩, ⟨0, 1⟩, ⟨0, 0⟩],
   [⟨0, 1, none⟩, ⟨0, 2, none⟩]⟩

/-- A game refuting monotonicity in the time bound: a single target vertex
whose only (self-loop) edge is available only at time 1. -/
def gPunct : Game :=
  ⟨[⟨0, 1⟩],
   [⟨0, 0, some (.equal (.ofVar "time") (.ofConst 1))⟩]⟩

/-- A game whose target vertex always has a move back to a target: a single
target vertex with an unconstrained self-loop. -/
def gLoop : Game :=
  ⟨[⟨0, 1⟩], [⟨0, 0, none⟩]⟩

/-- A structurally valid game whose only constraint never mentions `time`. -/
def gTimeless : Game :=
  ⟨[⟨0, 1⟩], [⟨0, 0, some (.equal (.ofConst 1) (.ofConst 1))⟩]⟩

/-- Membership in the successor layer, unfolded to its intended reading. -/
lemma mem_ewAux_succ (g : Game) (T : Nat) (d : Nat) (v : Nat) :
    v ∈ ewAux g T (d + 1) ↔
      v < g.n ∧ ∃ m ∈ g.availableMoves v ((T - (d + 1) : Nat) : Int), m ∈ ewAux g T d := by
  simp [ewAux, List.any_eq_true, Finset.mem_filter, Finset.mem_range]

lemma targetSet_subset_range (g : Game) : g.targetSet ⊆ Finset.range g.n :=
  Finset.filter_subset _ _

lemma ewAux_subset_range (g : Game) (T : Nat) : ∀ d, ewAux g T d ⊆ Finset.range g.n := by
  intro d
  cases d with
  | zero => exact targetSet_subset_range g
  | succ d => simp only [ewAux]; exact Finset.filter_subset _ _

lemma mem_staticVertices (g : Game) (T : Nat) (x : Nat × Nat) :
    x ∈ staticVertices g T ↔ x.1 < g.n ∧ x.2 ≤ T := by
  unfold staticVertices
  rw [Finset.mem_product]
  simp [Nat.lt_succ_iff]


lemma expandedTargets_subset_staticVertices (g : Game) (T : Nat) :
    expandedTargets g T ⊆ staticVertices g T := by
  intro x hx
  rcases Finset.mem_image.mp hx with ⟨v, hv, rfl⟩
  have hvr : v ∈ Finset.range g.n := targetSet_subset_range g hv
  exact (mem_staticVertices g T _).mpr ⟨Finset.mem_range.mp hvr, le_rfl⟩

/-- The C++ sweep loop only ever grows the attractor. -/
lemma subset_staticLoop (g : Game) (T : Nat) :
    ∀ fuel A, A ⊆ staticLoop g T fuel A := by
  intro fuel
  induction fuel with
  | zero => intro A; simp [staticLoop]
  | succ f ih =>
      intro A
      simp only [staticLoop]
      by_cases h : newVertices g T A = ∅
      · simp [h]
      · simpa [h] using (Finset.subset_union_left).trans (ih (A ∪ newVertices g T A))

/-- With more fuel than there are static vertices outside the initial set,
the loop reaches the fixpoint the C++ `while (changed)` loop stops at: no
further sweep finds a vertex to add. -/
lemma staticLoop_isFixpoint (g : Game) (T : Nat) :
    ∀ fuel A, (staticVertices g T \ A).card < fuel →
      newVertices g T (staticLoop g T fuel A) = ∅ := by
  intro fuel
  induction fuel with
  | zero => intro A h; omega
  | succ f ih =>
      intro A h
      simp only [staticLoop]
      by_cases hN : newVertices g T A = ∅
      · simp [hN]
      · simp only [hN, if_false]
        apply ih
        have hstrict : staticVertices g T \ (A ∪ newVertices g T A) ⊂ staticVertices g T \ A := by
          rcases Finset.nonempty_iff_ne_empty.mpr hN with ⟨x, hx⟩
          have hxSV : x ∈ staticVertices g T := Finset.mem_of_mem_filter x hx
          have hxA : x ∉ A := (Finset.mem_filter.mp hx).2.1
          constructor
          · intro y hy
            rcases Finset.mem_sdiff.mp hy with ⟨hy1, hy2⟩
            exact Finset.mem_sdiff.mpr ⟨hy1, fun hyA => hy2 (Finset.mem_union_left _ hyA)⟩
          · intro hsub
            have := hsub (Finset.mem_sdiff.mpr ⟨hxSV, hxA⟩)
            exact (Finset.mem_sdiff.mp this).2 (Finset.mem_union_right _ hx)
        have := Finset.card_lt_card hstrict
        omega

/-- The loop result is bounded by every set that contains the seed and is
closed under adding a static vertex with a successor inside. -/
lemma staticLoop_subset_closed (g : Game) (T : Nat) :
    ∀ fuel A S, A ⊆ S →
      (∀ x ∈ staticVertices g T, (∃ y ∈ staticSuccs g T x, y ∈ S) → x ∈ S) →
      staticLoop g T fuel A ⊆ S := by
  intro fuel
  induction fuel with
  | zero => intro A S hAS _; simpa [staticLoop] using hAS
  | succ f ih =>
      intro A S hAS hclosed
      simp only [staticLoop]
      by_cases hN : newVertices g T A = ∅
      · simpa [hN] using hAS
      · simp only [hN, if_false]
        apply ih _ _ _ hclosed
        apply Finset.union_subset hAS
        intro x hx
        rcases Finset.mem_filter.mp hx with ⟨hxSV, _, y, hy, hyA⟩
        exact hclosed x hxSV ⟨y, hy, hAS hyA⟩

/-- Every vertex of layer `d` (at time `T - d`) ends up in the static
attractor computed by the expansion solver. -/
lemma ewAux_mem_attractor (g : Game) (T : Nat) :
    ∀ d, d ≤ T → ∀ v ∈ ewAux g T d,
      (v, T - d) ∈ computeStaticAttractor g T (expandedTargets g T) := by
  intro d
  induction d with
  | zero =>
      intro _ v hv
      have hvt : (v, T) ∈ expandedTargets g T := Finset.mem_image.mpr ⟨v, hv, rfl⟩
      simpa using subset_staticLoop g T _ _ hvt
  | succ d ih =>
      intro hdT v hv
      rcases (mem_ewAux_succ g T d v).mp hv with ⟨hvn, m, hm, hmew⟩
      have hmW := ih (by omega) m hmew
      have hxSV : (v, T - (d + 1)) ∈ staticVertices g T :=
        (mem_staticVertices g T _).mpr ⟨hvn, by omega⟩
      have hsucc : (m, T - d) ∈ staticSuccs g T (v, T - (d + 1)) := by
        simp only [staticSuccs]
        rw [if_pos (show T - (d + 1) < T by omega)]
        have harith : T - (d + 1) + 1 = T - d := by omega
        rw [harith]
        exact List.mem_map.mpr ⟨m, hm, rfl⟩
      have hfix :
          newVertices g T (computeStaticAttractor g T (expandedTargets g T)) = ∅ := by
        apply staticLoop_isFixpoint
        have hcard := Finset.card_le_card
          (Finset.sdiff_subset (s := staticVertices g T) (t := expandedTargets g T))
        omega
      by_contra hxW
      have hnew : (v, T - (d + 1)) ∈
          newVertices g T (computeStaticAttractor g T (expandedTargets g T)) :=
        Finset.mem_filter.mpr ⟨hxSV, hxW, ⟨(m, T - d), hsucc, hmW⟩⟩
      rw [hfix] at hnew
      exact absurd hnew (Finset.not_mem_empty _)

/-- Conversely, the static attractor contains only vertices of the matching
layer. -/
lemma attractor_subset_ewAux (g : Game) (T : Nat) :
    computeStaticAttractor g T (expandedTargets g T) ⊆
      (staticVertices g T).filter (fun x => x.1 ∈ ewAux g T (T - x.2)) := by
  apply staticLoop_subset_closed
  · intro x hx
    have hxSV := expandedTargets_subset_staticVertices g T hx
    rcases Finset.mem_image.mp hx with ⟨v, hv, rfl⟩
    refine Finset.mem_filter.mpr ⟨hxSV, ?_⟩
    simpa [ewAux] using hv
  · rintro ⟨v, t⟩ hxSV ⟨y, hy, hyS⟩
    have ht : t < T := by
      by_contra h
      simp [staticSuccs, h] at hy
    simp only [staticSuccs, if_pos ht] at hy
    rcases List.mem_map.mp hy with ⟨m, hm, rfl⟩
    rcases Finset.mem_filter.mp hyS with ⟨_, hyew⟩
    refine Finset.mem_filter.mpr ⟨hxSV, ?_⟩
    have hTt : T - t = (T - (t + 1)) + 1 := by omega
    rw [hTt, mem_ewAux_succ]
    refine ⟨((mem_staticVertices g T _).mp hxSV).1, m, ?_, hyew⟩
    have harith : T - (T - (t + 1) + 1) = t := by omega
    rw [harith]
    exact hm

/-- The winning set reported by the expansion solver is exactly the top
layer of the layered characterisation: the vertices from which a timed path
of length exactly `T` reaches a target. -/
lemma expansionWinning_eq_ewAux (g : Game) (T : Nat) :
    expansionWinning g T = ewAux g T T := by
  ext v
  simp only [expansionWinning, Finset.mem_filter, Finset.mem_range]
  constructor
  · rintro ⟨_, hvW⟩
    have hmem := attractor_subset_ewAux g T hvW
    rcases Finset.mem_filter.mp hmem with ⟨_, h⟩
    simpa using h
  · intro hv
    have hvn : v < g.n := Finset.mem_range.mp (ewAux_subset_range g T T hv)
    refine ⟨hvn, ?_⟩
    have hmem := ewAux_mem_attractor g T T le_rfl v hv
    simpa using hmem

/-! ## Relating the backwards attractor to the layered sets -/

/-- On a game whose every vertex is owned by Player 0, one iteration of the
backwards attractor loop is exactly the existential one-step predecessor. -/
lemma attractorStep_all_p0 (g : Game) (hp : ∀ v < g.n, g.playerOf v = 0)
    (A : Finset Nat) (t : Nat) :
    attractorStep g A t =
      (Finset.range g.n).filter (fun v => ∃ m ∈ g.availableMoves v (t : Int), m ∈ A) := by
  ext v
  simp only [attractorStep, Finset.mem_filter, Finset.mem_range]
  constructor
  · rintro ⟨hvn, hnon, hcond⟩
    rw [if_pos (hp v hvn)] at hcond
    rcases List.any_eq_true.mp hcond with ⟨m, hm, hmA⟩
    exact ⟨hvn, m, hm, of_decide_eq_true hmA⟩
  · rintro ⟨hvn, m, hm, hmA⟩
    refine ⟨hvn, ?_, ?_⟩
    · simp only [List.isEmpty_iff]
      exact fun h => by simp [h] at hm
    · rw [if_pos (hp v hvn)]
      exact List.any_eq_true.mpr ⟨m, hm, decide_eq_true hmA⟩

/-- Running the backwards loop for the remaining `t` time steps from the
matching layer lands on the full layered winning set (all-Player-0 case). -/
lemma backwardLoop_all_p0 (g : Game) (hp : ∀ v < g.n, g.playerOf v = 0) (T : Nat) :
    ∀ t, t ≤ T → backwardLoop g t (ewAux g T (T - t)) = ewAux g T T := by
  intro t
  induction t with
  | zero => intro _; simp [backwardLoop]
  | succ t ih =>
      intro h
      simp only [backwardLoop]
      have hstep : attractorStep g (ewAux g T (T - (t + 1))) t = ewAux g T (T - t) := by
        rw [attractorStep_all_p0 g hp]
        ext v
        rw [show T - t = (T - (t + 1)) + 1 by omega, mem_ewAux_succ]
        simp only [Finset.mem_filter, Finset.mem_range]
        rw [show T - (T - (t + 1) + 1) = t by omega]
      rw [hstep]
      exact ih (by omega)

lemma attractorStep_eq_spec (g : Game) (A : Finset Nat) (t : Nat) :
    attractorStep g A t = specAttractorStep g A t := by
  ext v
  by_cases hp : g.playerOf v = 0 <;>
    simp only [attractorStep, specAttractorStep, Finset.mem_filter, Finset.mem_range,
      hp, if_pos, if_neg, List.any_eq_true, List.all_eq_true, decide_eq_true_iff,
      List.isEmpty_iff, ne_eq, not_false_eq_true, true_and, false_and, and_true,
      if_true, if_false, not_true_eq_false, or_false, false_or]

lemma backwardLoop_eq_spec (g : Game) : ∀ t A, backwardLoop g t A = specBackwardLoop g t A := by
  intro t
  induction t with
  | zero => intro A; rfl
  | succ t ih =>
      intro A
      simp only [backwardLoop, specBackwardLoop]
      rw [attractorStep_eq_spec]
      exact ih _

/-! ## Monotonicity of the expansion solver under closed targets -/

/-- If every target vertex always (at all relevant times) has an available
move back into the target set, the layered winning sets grow with the time
bound. -/
lemma ewAux_mono_succT (g : Game) (T : Nat)
    (H : ∀ v ∈ g.targetSet, ∀ t ≤ T, ∃ m ∈ g.availableMoves v (t : Int), m ∈ g.targetSet) :
    ∀ d, d ≤ T → ewAux g T d ⊆ ewAux g (T + 1) (d + 1) := by
  intro d
  induction d with
  | zero =>
      intro _ v hv
      rw [mem_ewAux_succ]
      have hvn : v < g.n := Finset.mem_range.mp (targetSet_subset_range g hv)
      rcases H v hv T le_rfl with ⟨m, hm, hmT⟩
      refine ⟨hvn, m, ?_, hmT⟩
      simpa using hm
  | succ d ih =>
      intro h v hv
      rcases (mem_ewAux_succ g T d v).mp hv with ⟨hvn, m, hm, hmew⟩
      rw [mem_ewAux_succ]
      refine ⟨hvn, m, ?_, ih (by omega) hmew⟩
      rw [show T + 1 - (d + 1 + 1) = T - (d + 1) by omega]
      exact hm

/-! ## Association-list lemmas for the term operations (claim C9) -/

lemma lookupVar_addEntry (l : List (String × Int)) (y : String) (c : Int) (x : String) :
    lookupVar (addEntry l y c) x =
      if y = x then some ((lookupVar l x).getD 0 + c) else lookupVar l x := by
  induction l with
  | nil =>
      by_cases h : y = x <;> simp [addEntry, lookupVar, h]
  | cons e rest ih =>
      obtain ⟨z, d⟩ := e
      simp only [addEntry]
      by_cases hzy : z = y
      · rw [if_pos hzy]
        subst hzy
        by_cases hzx : z = x <;> simp [lookupVar, hzx]
      · rw [if_neg hzy]
        by_cases hzx : z = x
        · have hyx : y ≠ x := fun h => hzy (hzx.trans h.symm)
          simp [lookupVar, hzx, hyx]
        · simp [lookupVar, hzx, ih]

lemma lookupVar_eq_none_of_not_mem (l : List (String × Int)) (x : String)
    (h : x ∉ l.map Prod.fst) : lookupVar l x = none := by
  induction l with
  | nil => rfl
  | cons e rest ih =>
      obtain ⟨z, d⟩ := e
      simp only [List.map_cons, List.mem_cons] at h
      push_neg at h
      have hzx : z ≠ x := Ne.symm h.1
      simp [lookupVar, hzx, ih h.2]

/-- Folding `coefficients_[var] += coeff` over the entries of a map with
unique keys: the resulting lookup of `x` is the left value plus the right
value when `x` occurs on the right, and the left lookup otherwise. -/
lemma lookupVar_foldl_addEntry (us : List (String × Int))
    (hnodup : (us.map Prod.fst).Nodup) (l : List (String × Int)) (x : String) :
    lookupVar (us.foldl (fun acc e => addEntry acc e.1 e.2) l) x =
      match lookupVar us x with
      | some c => some ((lookupVar l x).getD 0 + c)
      | none => lookupVar l x := by
  induction us generalizing l with
  | nil => simp [lookupVar]
  | cons e rest ih =>
      obtain ⟨y, c⟩ := e
      simp only [List.map_cons, List.nodup_cons] at hnodup
      simp only [List.foldl_cons]
      rw [ih hnodup.2 (addEntry l y c)]
      by_cases hyx : y = x
      · subst hyx
        have hrest : lookupVar rest y = none :=
          lookupVar_eq_none_of_not_mem rest y hnodup.1
        simp [lookupVar, hrest, lookupVar_addEntry]
      · simp [lookupVar, hyx, lookupVar_addEntry]

lemma lookupVar_scale (l : List (String × Int)) (k : Int) (x : String) :
    lookupVar (l.map (fun e => (e.1, e.2 * k))) x = (lookupVar l x).map (· * k) := by
  induction l with
  | nil => rfl
  | cons e rest ih =>
      obtain ⟨z, d⟩ := e
      by_cases hzx : z = x <;> simp [lookupVar, hzx, ih]

/-! ## Claim C1 -/

/-- C1 (counterexample): the two solvers disagree.  On `gSep` (a Player-1
vertex with one always-available edge into the target and one into a
non-target) with `T = 1`, the backwards attractor answers `∅` (the
universal check fails) while the expansion solver, whose static attractor
ignores owners, answers `{0}`. -/
theorem backward_ne_expansion_counterexample :
    backwardWinning gSep 1 ≠ expansionWinning gSep 1 := by decide

/-- C1 (amended): on games whose every vertex is owned by Player 0 the
backwards time-indexed attractor solver and the time-unfolding expansion
solver compute the same Player-0 winning set at time 0, for every time
bound. -/
theorem backward_eq_expansion_of_all_player0 (g : Game) (T : Nat)
    (hp : ∀ v < g.n, g.playerOf v = 0) :
    backwardWinning g T = expansionWinning g T := by
  rw [expansionWinning_eq_ewAux]
  have h0 : g.targetSet = ewAux g T (T - T) := by simp [ewAux]
  unfold backwardWinning
  rw [h0]
  exact backwardLoop_all_p0 g hp T T le_rfl

/-- C1 (witness): the amended equivalence at the concrete all-Player-0
game `s1` with `T = 1`. -/
theorem backward_eq_expansion_witness :
    (∀ v < s1.n, s1.playerOf v = 0) ∧ backwardWinning s1 1 = expansionWinning s1 1 :=
  ⟨by decide, backward_eq_expansion_of_all_player0 s1 1 (by decide)⟩

/-! ## Claim C2 -/

/-- C2: the backwards attractor solver computes exactly the iteration the
claim describes: `A` starts as the target set; for `t` from `T-1` down to
`0` it is replaced by `A'` where a vertex with no available successor is
dropped, a Player-0 vertex is kept iff some available successor is in `A`,
and a Player-1 vertex iff all available successors are in `A`; the final
`A` is the returned winning set. -/
theorem backwardWinning_eq_spec_description (g : Game) (T : Nat) :
    backwardWinning g T = specBackwardWinning g T :=
  backwardLoop_eq_spec g T g.targetSet

/-! ## Claim C3 -/

/-- C3 (counterexample): the expansion solver is NOT monotone in the time
bound.  On `gPunct` (one target vertex whose self-loop is available only at
time 1), the winning set with bound `0` is `{0}` but with bound `1` it is
empty: the solver computes punctual reachability (targets live only in the
`max_time` layer). -/
theorem expansion_not_monotone_counterexample :
    ¬ expansionWinning gPunct 0 ⊆ expansionWinning gPunct 1 := by decide

/-- C3 (amended): the expansion solver is monotone in the time bound for
games in which every target vertex has, at every time up to the bound, an
available move to a target vertex (so punctual reachability coincides with
reach-within). -/
theorem expansionWinning_mono_of_targets_closed (g : Game) (T : Nat)
    (H : ∀ v ∈ g.targetSet, ∀ t ≤ T, ∃ m ∈ g.availableMoves v (t : Int), m ∈ g.targetSet) :
    expansionWinning g T ⊆ expansionWinning g (T + 1) := by
  rw [expansionWinning_eq_ewAux, expansionWinning_eq_ewAux]
  exact ewAux_mono_succT g T H T le_rfl

/-- C3 (witness): the amended monotonicity at the concrete game `gLoop`
(an unconstrained target self-loop) with `T = 1`. -/
theorem expansionWinning_mono_witness :
    (∀ v ∈ gLoop.targetSet, ∀ t : Nat, t ≤ 1 →
        ∃ m ∈ gLoop.availableMoves v (t : Int), m ∈ gLoop.targetSet) ∧
      expansionWinning gLoop 1 ⊆ expansionWinning gLoop 2 := by
  have hts : gLoop.targetSet = {0} := by decide
  have hH : ∀ v ∈ gLoop.targetSet, ∀ t : Nat, t ≤ 1 →
      ∃ m ∈ gLoop.availableMoves v (t : Int), m ∈ gLoop.targetSet := by
    intro v hv t ht
    have hv0 : v = 0 := by rw [hts, Finset.mem_singleton] at hv; exact hv
    subst hv0
    interval_cases t
    · exact ⟨0, by decide, by decide⟩
    · exact ⟨0, by decide, by decide⟩
  exact ⟨hH, expansionWinning_mono_of_targets_closed gLoop 1 hH⟩

/-! ## Claim C4 -/

/-- C4 (counterexample): on scenario S1 (`v0 → v1` with constraint
`time == 0`, `T = 1`) neither solver returns `{v0, v1}`: the target vertex
`v1` has no outgoing edge, so under the punctual semantics it is not
winning at time 0. -/
theorem scenario_s1_claim_counterexample :
    backwardWinning s1 1 ≠ {0, 1} ∧ expansionWinning s1 1 ≠ {0, 1} := by decide

/-- C4 (amended): on scenario S1 with `T = 1` both solvers return the
Player-0 winning set `{v0}` at time 0. -/
theorem scenario_s1_winning_sets :
    backwardWinning s1 1 = {0} ∧ expansionWinning s1 1 = {0} := by decide

/-! ## Claim C5 -/

/-- C5 (counterexample): the `MODULUS` case does not normalise negative
values.  With `t = -1`, `m = 2`, `r = 1` the normalised remainder
`((-1 % 2) + 2) % 2` equals `1 = r`, yet `evaluate` returns `false`
because C++ `%` yields `-1`. -/
theorem mod_eval_not_normalised :
    ¬ (evalFormula (.modFormula (.ofConst (-1)) 2 1) [] = true ↔
        (Int.tmod (evalTerm (.ofConst (-1)) []) 2 + 2).tmod 2 = 1) := by decide

/-- C5 (amended): for `m > 0`, `0 ≤ r < m`, and environments in which the
term evaluates to a NONNEGATIVE value, `Mod(t, m, r)` evaluates to true iff
`((eval(t,e) % m) + m) % m = r`; for negative values the code's raw
truncated `%` is not normalised into `[0, m)`. -/
theorem mod_eval_normalised_of_nonneg (t : PresburgerTerm) (env : Env) (m r : Int)
    (hm : 0 < m) (hr0 : 0 ≤ r) (hrm : r < m) (hx : 0 ≤ evalTerm t env) :
    (evalFormula (.modFormula t m r) env = true ↔
      (Int.tmod (evalTerm t env) m + m).tmod m = r) := by
  have hxm : Int.tmod (evalTerm t env) m = evalTerm t env % m :=
    Int.tmod_eq_emod hx (le_of_lt hm)
  have hwhole : 0 ≤ Int.tmod (evalTerm t env) m + m := by
    have := Int.emod_nonneg (evalTerm t env) (ne_of_gt hm)
    omega
  have h2 : Int.tmod (Int.tmod (evalTerm t env) m + m) m =
      (Int.tmod (evalTerm t env) m + m) % m :=
    Int.tmod_eq_emod hwhole (le_of_lt hm)
  have h3 : (evalTerm t env % m + m) % m = evalTerm t env % m % m := by
    simp
  simp only [evalFormula, beq_iff_eq]
  rw [h2, hxm, h3, Int.emod_emod_of_dvd _ dvd_rfl]

/-- C5 (witness): the amended statement at `t = 5`, `m = 3`, `r = 2`,
empty environment. -/
theorem mod_eval_normalised_witness :
    (0 : Int) < 3 ∧ (0 : Int) ≤ 2 ∧ (2 : Int) < 3 ∧ 0 ≤ evalTerm (.ofConst 5) [] ∧
      (evalFormula (.modFormula (.ofConst 5) 3 2) [] = true ↔
        (Int.tmod (evalTerm (.ofConst 5) []) 3 + 3).tmod 3 = 2) :=
  ⟨by decide, by decide, by decide, by decide,
   mod_eval_normalised_of_nonneg (.ofConst 5) [] 3 2 (by decide) (by decide) (by decide)
     (by decide)⟩

/-! ## Claim C6 -/

/-- C6 (code bug): `PresburgerFormula::modulus` performs no validation, so
a `Mod` formula with modulus `0` is built successfully and evaluated; in
the source, evaluating it computes `expr_val % 0` — a division by zero
(here `Int.tmod 7 0 = 7 = r`, so the total model even returns `true`). -/
theorem mkModulus_accepts_zero_modulus :
    (PresburgerFormula.mkModulus (.ofConst 7) 0 7).modulusField = 0 ∧
      evalFormula (PresburgerFormula.mkModulus (.ofConst 7) 0 7) [] = true := by decide

/-! ## Claim C7 -/

/-- C7: `Exists(x, f)` evaluates to true in `env` iff some integer
`n ∈ [0, 10]` (the code's `X_MAX = 10`, inclusive) makes `f` true in `env`
extended with `x ↦ n`, the extension overriding any existing binding of
`x`. -/
theorem exists_eval_iff_bounded_witness (env : Env) (x : String) (f : PresburgerFormula) :
    evalFormula (.existsFormula x f) env = true ↔
      ∃ n : Int, 0 ≤ n ∧ n ≤ 10 ∧ evalFormula f ((x, n) :: env) = true := by
  simp only [evalFormula, List.any_eq_true, List.mem_range]
  constructor
  · rintro ⟨val, hval, hev⟩
    exact ⟨(val : Int), Int.ofNat_nonneg val,
      by exact_mod_cast Nat.lt_succ_iff.mp hval, hev⟩
  · rintro ⟨n, hn0, hn10, hev⟩
    refine ⟨n.toNat, by omega, ?_⟩
    rw [Int.toNat_of_nonneg hn0]
    exact hev

/-! ## Claim C8 -/

/-- C8 (counterexample): validation does not inspect constraints.  The
game `gTimeless` has an edge whose constraint (`1 == 1`) never mentions the
variable `time`, yet `validate_game_structure` accepts it. -/
theorem validate_accepts_timeless_constraint :
    gTimeless.hasTimelessConstraint = true ∧ gTimeless.validate = true := by decide

/-- C8 (amended): `validate_game_structure` checks exactly three structural
conditions — the vertex set is nonempty, every vertex has an outgoing edge,
and some target vertex exists; constraint formulas (in particular whether
they reference `time`) are never examined. -/
theorem validate_iff_structural_checks (g : Game) :
    g.validate = true ↔
      0 < g.n ∧ (∀ v < g.n, g.outDegree v ≠ 0) ∧ g.targetSet ≠ ∅ := by
  unfold Game.validate
  constructor
  · intro h
    by_cases h1 : g.n = 0
    · rw [if_pos h1] at h
      exact absurd h (by simp)
    · rw [if_neg h1] at h
      by_cases h2 : (List.range g.n).any (fun v => g.outDegree v == 0) = true
      · rw [if_pos h2] at h
        exact absurd h (by simp)
      · rw [if_neg h2] at h
        refine ⟨by omega, ?_, by simpa using h⟩
        intro v hv hdeg
        exact h2 (List.any_eq_true.mpr
          ⟨v, List.mem_range.mpr hv, by simp [hdeg]⟩)
  · rintro ⟨h1, h2, h3⟩
    have hany : ¬ ((List.range g.n).any (fun v => g.outDegree v == 0) = true) := by
      simp only [List.any_eq_true, List.mem_range, beq_iff_eq]
      rintro ⟨v, hv, hdeg⟩
      exact h2 v hv hdeg
    rw [if_neg (by omega : ¬ g.n = 0), if_neg hany]
    simpa using h3

/-! ## Claim C9 -/

/-- C9 (counterexample): the Term invariant "no variable mapped to zero"
does not hold for the results of `+` and `*`: adding `1·x` and `(-1)·x`
keeps the entry `("x", 0)`, and scaling `x` by `0` produces it too (indeed
`PresburgerTerm::to_string` explicitly skips zero coefficients, so the code
expects them to occur). -/
theorem term_add_keeps_zero_coefficient :
    ("x", (0 : Int)) ∈
        (PresburgerTerm.add (.ofVarCoeff "x" 1) (.ofVarCoeff "x" (-1))).coefficients ∧
      ("x", (0 : Int)) ∈ ((PresburgerTerm.ofVar "x").scale 0).coefficients := by decide

/-- C9 (amended): `+` merges the coefficient maps pointwise WITHOUT
dropping keys whose coefficient becomes zero, and `* k` keeps exactly the
keys of the operand: for a right operand with unique keys (the `std::map`
representation invariant), a key is absent from `t + u` iff it is absent
from both `t` and `u`, the coefficient of every key is the sum of the two
coefficients (missing treated as 0), and the coefficient map of `t * k` is
the pointwise `· * k` image of `t`'s. -/
theorem term_add_scale_lookup (t u : PresburgerTerm)
    (hu : (u.coefficients.map Prod.fst).Nodup) (k : Int) (x : String) :
    (lookupVar (t.add u).coefficients x = none ↔
      lookupVar t.coefficients x = none ∧ lookupVar u.coefficients x = none) ∧
    (lookupVar (t.add u).coefficients x).getD 0 =
      (lookupVar t.coefficients x).getD 0 + (lookupVar u.coefficients x).getD 0 ∧
    lookupVar (t.scale k).coefficients x = (lookupVar t.coefficients x).map (· * k) := by
  have hadd : lookupVar (t.add u).coefficients x =
      match lookupVar u.coefficients x with
      | some c => some ((lookupVar t.coefficients x).getD 0 + c)
      | none => lookupVar t.coefficients x :=
    lookupVar_foldl_addEntry u.coefficients hu t.coefficients x
  have hscale : lookupVar (t.scale k).coefficients x =
      (lookupVar t.coefficients x).map (· * k) := lookupVar_scale t.coefficients k x
  refine ⟨?_, ?_, hscale⟩
  · rw [hadd]
    cases hcu : lookupVar u.coefficients x <;>
      cases hct : lookupVar t.coefficients x <;> simp
  · rw [hadd]
    cases hcu : lookupVar u.coefficients x <;>
      cases hct : lookupVar t.coefficients x <;> simp

/-- C9 (witness): the amended characterisation at `t = 2·x`, `u = 3·x`,
`k = 5`, key `"x"`. -/
theorem term_add_scale_lookup_witness :
    ((PresburgerTerm.ofVarCoeff "x" 3).coefficients.map Prod.fst).Nodup ∧
    ((lookupVar ((PresburgerTerm.ofVarCoeff "x" 2).add
          (PresburgerTerm.ofVarCoeff "x" 3)).coefficients "x" = none ↔
        lookupVar (PresburgerTerm.ofVarCoeff "x" 2).coefficients "x" = none ∧
        lookupVar (PresburgerTerm.ofVarCoeff "x" 3).coefficients "x" = none) ∧
      (lookupVar ((PresburgerTerm.ofVarCoeff "x" 2).add
          (PresburgerTerm.ofVarCoeff "x" 3)).coefficients "x").getD 0 =
        (lookupVar (PresburgerTerm.ofVarCoeff "x" 2).coefficients "x").getD 0 +
        (lookupVar (PresburgerTerm.ofVarCoeff "x" 3).coefficients "x").getD 0 ∧
      lookupVar ((PresburgerTerm.ofVarCoeff "x" 2).scale 5).coefficients "x" =
        (lookupVar (PresburgerTerm.ofVarCoeff "x" 2).coefficients "x").map (· * 5)) :=
  ⟨by decide,
   term_add_scale_lookup (.ofVarCoeff "x" 2) (.ofVarCoeff "x" 3) (by decide) 5 "x"⟩

/-! ## Claim C10 -/

/-- C10 (code bug): `ReachabilityObjective` with kind
`TIME_BOUNDED_SAFETY`, targets `{0}` and time bound `5` reports BOTH
`is_satisfied(0, 5) = true` ("safety period completed", since
`current_time >= time_bound_`) and `has_failed(0, 5) = true` (the code
returns `at_target` with no time check, contradicting its own comment
"Failed if reached target before time bound"; the parallel
`GGGReachabilityObjective` implementation checks `time <= bound` here). -/
theorem timeBoundedSafety_satisfied_and_failed :
    (ReachabilityObjective.isSatisfied ⟨.timeBoundedSafety, {0}, 5⟩ 0 5 = true) ∧
      (ReachabilityObjective.hasFailed ⟨.timeBoundedSafety, {0}, 5⟩ 0 5 = true) := by decide
